import Mathlib

/-!
Verification of the key-derivation and key-encoding layer of
`ObjectStoreProvider` (`src/ObjectStoreProviderUtils.ts`).

Embedding choices:

* JavaScript numbers are embedded as exact decimal values `Dec` (an integer
  significand times an integer power of ten), with `nan` / `posInf` / `negInf`
  adjoined in `JSNum`.  The arithmetic that the source performs on numbers
  (negation, `Math.floor(Math.log n / Math.LN10)`, division by a power of ten,
  `10 - n`) is modelled exactly on these decimal values instead of on IEEE
  doubles.
* `String(n)` on a number is modelled by `decToString`, following the
  ECMA-262 `Number::toString` algorithm evaluated on the exact decimal value
  (plain positional notation for `1e-6 ≤ |v| < 1e21`, scientific notation
  outside that band, `"0"` for zero).
* JavaScript strings are embedded as `List Char`; the JavaScript `<` on
  strings is code-unit lexicographic comparison, embedded as
  `List.Lex (· < ·)` on the character lists.
* Runtime values that can reach the key pipeline are embedded as `JSValue`;
  thrown `Error`s become the `Except` error cases of `JsError`, whose
  constructors carry the dynamic data that the source interpolates into the
  error message (the offending key, key path, or runtime type).
-/

namespace OSP

/-- An exact decimal number: the value `man * 10 ^ exp`.  This is the
embedding of a finite JavaScript number value. -/
structure Dec where
  man : ℤ
  exp : ℤ
deriving DecidableEq, Repr

/-- The rational value of a `Dec`. -/
def Dec.val (d : Dec) : ℚ := (d.man : ℚ) * (10 : ℚ) ^ d.exp

/-- Exact subtraction of decimals, the embedding of `-` on numbers. -/
def Dec.sub (a b : Dec) : Dec :=
  let m := min a.exp b.exp
  ⟨a.man * 10 ^ (a.exp - m).toNat - b.man * 10 ^ (b.exp - m).toNat, m⟩

/-- A JavaScript number: an exact decimal, or one of the non-finite values. -/
inductive JSNum where
  | fin (d : Dec)
  | nan
  | posInf
  | negInf
deriving DecidableEq, Repr

/-- Base-10 digits of a natural number, least significant first, computed
with structural fuel so that it reduces in the kernel.
`natDigits_eq_digits` identifies it with `Nat.digits 10`. -/
def natDigitsAux : ℕ → ℕ → List ℕ
  | 0, _ => []
  | fuel + 1, n => if n = 0 then [] else n % 10 :: natDigitsAux fuel (n / 10)

/-- Base-10 digits, least significant first. -/
def natDigits (n : ℕ) : List ℕ := natDigitsAux n n

/-- Decimal digit characters of a positive natural number, most significant
first; `0` is printed as `"0"`. -/
def natChars (n : ℕ) : List Char :=
  if n = 0 then ['0'] else ((natDigits n).reverse).map Nat.digitChar

/-- Number of trailing zeros in the decimal expansion of `m`. -/
def trailingZeros (m : ℕ) : ℕ := ((natDigits m).takeWhile (· == 0)).length

/-- The significant digits of `m` (least significant first, trailing decimal
zeros stripped). -/
def sigDigits (m : ℕ) : List ℕ := (natDigits m).drop (trailingZeros m)

/-- The position of the decimal point for `d` in the sense of ECMA-262
`Number::toString`: with `s` the significant digits, the value of `d` is
`±0.s * 10 ^ decPos d`. -/
def decPos (d : Dec) : ℤ :=
  ((sigDigits d.man.natAbs).length : ℤ) + (trailingZeros d.man.natAbs : ℤ) + d.exp

/-- The digit characters of `|d|`, most significant first, trailing zeros
stripped. -/
def decChars (d : Dec) : List Char :=
  ((sigDigits d.man.natAbs).reverse).map Nat.digitChar

/-- The body (without sign) of the ECMA-262 decimal string of a nonzero `d`. -/
def decBody (d : Dec) : List Char :=
  let k : ℤ := ((sigDigits d.man.natAbs).length : ℤ)
  let n : ℤ := decPos d
  let dchars := decChars d
  if k ≤ n ∧ n ≤ 21 then dchars ++ List.replicate (n - k).toNat '0'
  else if 0 < n ∧ n ≤ 21 then dchars.take n.toNat ++ '.' :: dchars.drop n.toNat
  else if -6 < n ∧ n ≤ 0 then
    '0' :: '.' :: (List.replicate (-n).toNat '0' ++ dchars)
  else
    (if k = 1 then dchars else dchars.take 1 ++ '.' :: dchars.drop 1) ++
      'e' :: (if 0 ≤ n - 1 then '+' else '-') :: natChars (n - 1).natAbs

/-- ECMA-262 `Number::toString` (base 10) evaluated on the exact decimal
value: the embedding of JavaScript `String(n)` for a finite number. -/
def decToString (d : Dec) : List Char :=
  if d.man = 0 then ['0']
  else if d.man < 0 then '-' :: decBody d else decBody d

/-- JavaScript `String(n)` on a number value. -/
def jsNumToString : JSNum → List Char
  | .fin d => decToString d
  | .nan => ['N', 'a', 'N']
  | .posInf => ['I', 'n', 'f', 'i', 'n', 'i', 't', 'y']
  | .negInf => '-' :: ['I', 'n', 'f', 'i', 'n', 'i', 't', 'y']

/-- Source: `const zeroes = "0000000000000000";` (16 zero characters). -/
def zeroes : List Char := List.replicate 16 '0'

/-- Source: `formatFixed(n, digits)` — `String(n)` left-padded with zeros to
`digits` characters when `0 < digits - length < 16`. -/
def formatFixed (n : ℤ) (digits : ℕ) : List Char :=
  let result := decToString ⟨n, 0⟩
  let pre : ℤ := (digits : ℤ) - (result.length : ℤ)
  if 0 < pre ∧ pre < (zeroes.length : ℤ) then zeroes.take pre.toNat ++ result
  else result

/-- Exact `⌊log10 |d|⌋` for `d.man ≠ 0`: the embedding of the source's
`Math.floor(Math.log(n) / Math.LN10)` (exact logarithm in place of the
floating-point one). -/
def Dec.log10floor (d : Dec) : ℤ := ((natDigits d.man.natAbs).length : ℤ) - 1 + d.exp

/-- `|d|`, as computed by the source's `if (n < 0) { n = -n; }`. -/
def absDec (d : Dec) : Dec := if d.man < 0 then ⟨-d.man, d.exp⟩ else d

/-- The normalized mantissa of `d`, as computed by the source's
`n = n / Math.pow(10, exponent)` (exact division by the power of ten). -/
def mantDec (d : Dec) : Dec := ⟨(absDec d).man, (absDec d).exp - (absDec d).log10floor⟩

/-- Source: `serializeNumberToOrderableString`.  Zero, `NaN` and the
infinities are printed raw; a finite nonzero number is encoded from its
sign, biased 4-digit exponent field and mantissa string. -/
def serializeNumberToOrderableString (n : JSNum) : List Char :=
  match n with
  | .nan => jsNumToString .nan
  | .posInf => jsNumToString .posInf
  | .negInf => jsNumToString .negInf
  | .fin d =>
    if d.man = 0 then jsNumToString (.fin d)
    else
      let e := (absDec d).log10floor
      if d.man < 0 then
        '-' :: (formatFixed (1024 - e) 4 ++ decToString (Dec.sub ⟨10, 0⟩ (mantDec d)))
      else
        formatFixed (1024 + e) 4 ++ decToString (mantDec d)

/-- The runtime-type datum interpolated into the unsupported-type error
message: the prototype's constructor for `isObject` values, the `typeof`
string otherwise. -/
inductive RuntimeTypeRep where
  | ctorNamed (name : List Char)
  | typeofNamed (name : List Char)
deriving DecidableEq, Repr

/-- A JavaScript runtime value as it can reach the key pipeline. -/
inductive JSValue where
  | num (n : JSNum)
  | str (s : List Char)
  | boolean (b : Bool)
  | null
  | undefinedV
  | date (t : JSNum)
  | arr (xs : List JSValue)
  | obj (fields : List (List Char × JSValue)) (ctorName : List Char)

/-- lodash `isArray`. -/
def isArrayV : JSValue → Bool
  | .arr _ => true
  | _ => false

/-- lodash `isNull(v) || isUndefined(v)`, the test used by
`getKeyForKeypath`. -/
def isNullOrUndefinedV : JSValue → Bool
  | .null => true
  | .undefinedV => true
  | _ => false

/-- The runtime type of a value as the source's error path computes it:
`isObject(val) ? Object.getPrototypeOf(val).constructor : typeof val`. -/
def runtimeTypeRep : JSValue → RuntimeTypeRep
  | .arr _ => .ctorNamed ['A', 'r', 'r', 'a', 'y']
  | .obj _ name => .ctorNamed name
  | .date _ => .ctorNamed ['D', 'a', 't', 'e']
  | .boolean _ => .typeofNamed ['b', 'o', 'o', 'l', 'e', 'a', 'n']
  | .null => .typeofNamed ['o', 'b', 'j', 'e', 'c', 't']
  | .undefinedV => .typeofNamed ['u', 'n', 'd', 'e', 'f', 'i', 'n', 'e', 'd']
  | .num _ => .typeofNamed ['n', 'u', 'm', 'b', 'e', 'r']
  | .str _ => .typeofNamed ['s', 't', 'r', 'i', 'n', 'g']

/-- Modelled from the spec: `KeyPathType` (declared in the repository's
`ObjectStoreProvider.ts`, which is not under `src/`): a key path is a single
field-locator string or an ordered list of field-locator strings. -/
inductive KeyPathType where
  | single (p : List Char)
  | multi (ps : List (List Char))
deriving DecidableEq, Repr

/-- The errors thrown by the module.  Each constructor stands for one
`throw new Error(...)` site and carries the dynamic data interpolated into
that site's message. -/
inductive JsError where
  /-- `"Type '" + type + "' unsupported at this time. ..."` -/
  | unsupportedKeyType (t : RuntimeTypeRep)
  /-- `serializeKeyToString called with a compound keypath ... but a
  non-compound key ...` (`compoundPath = true`), or with a non-compound
  keypath but a compound key (`compoundPath = false`); carries the offending
  key and key path, which the source prints via `JSON.stringify`. -/
  | serializeShapeMismatch (compoundPath : Bool) (key : JSValue) (keyPath : KeyPathType)
  /-- `formListOfKeys called with a compound keypath ... but a non-compound
  keyOrKeys ...` -/
  | formListShapeMismatch (keyPath : KeyPathType) (keyOrKeys : JSValue)

/-- Source: `arrayify`, applied to a key path. -/
def arrayifyPath : KeyPathType → List (List Char)
  | .single p => [p]
  | .multi ps => ps

/-- Source: `arrayify`, applied to a key-or-keys value. -/
def arrayifyKey : JSValue → List JSValue
  | .arr xs => xs
  | v => [v]

/-- Source: `isCompoundKeyPath(keyPath)` —
`isArray(keyPath) && keyPath.length > 1`. -/
def isCompoundKeyPath : KeyPathType → Bool
  | .single _ => false
  | .multi ps => decide (1 < ps.length)

/-- Field lookup on an object's own properties. -/
def lookupField : List (List Char × JSValue) → List Char → Option JSValue
  | [], _ => none
  | (k, v) :: rest, key => if k = key then some v else lookupField rest key

/-- Split a field locator at the dots: `"a.b.c"` becomes `["a","b","c"]`. -/
def splitDots (s : List Char) : List (List Char) :=
  s.foldr
    (fun c acc =>
      if c = '.' then [] :: acc
      else
        match acc with
        | a :: as_ => (c :: a) :: as_
        | [] => [[c]])
    [[]]

/-- Walk a sequence of property names through a value; absence at any level
yields `undefined`. -/
def getPath : JSValue → List (List Char) → JSValue
  | v, [] => v
  | .obj fields _, seg :: rest =>
    match lookupField fields seg with
    | some w => getPath w rest
    | none => .undefinedV
  | _, _ :: _ => .undefinedV

/-- Modelled from the spec: lodash `get(obj, path, undefined)` — "standard
nested-property lookup" with "dotted path resolution semantics"; this is the
body of the source's `getValueForSingleKeypath`. -/
def getValueForSingleKeypath (obj : JSValue) (singleKeyPath : List Char) : JSValue :=
  getPath obj (splitDots singleKeyPath)

/-- Source: `getKeyForKeypath(obj, keyPathRaw)`; `none` is the `undefined`
result. -/
def getKeyForKeypath (obj : JSValue) (keyPathRaw : KeyPathType) : Option JSValue :=
  let keyPathArray := arrayifyPath keyPathRaw
  let values := keyPathArray.map (getValueForSingleKeypath obj)
  if values.any (fun v => isNullOrUndefinedV v) then none
  else
    match keyPathRaw with
    | .single _ => some (values.headD .undefinedV)
    | .multi _ => some (.arr values)

/-- Source: `const keypathJoinerString = "%&";` -/
def keypathJoinerString : List Char := ['%', '&']

/-- Source: `serializeValueToOrderableString(val)`: tag `A` for numbers,
`B` for dates (on their millisecond timestamp), `C` for strings; every
other runtime type throws. -/
def serializeValueToOrderableString (val : JSValue) : Except JsError (List Char) :=
  match val with
  | .num n => .ok ('A' :: serializeNumberToOrderableString n)
  | .date t => .ok ('B' :: serializeNumberToOrderableString t)
  | .str s => .ok ('C' :: s)
  | v => .error (.unsupportedKeyType (runtimeTypeRep v))

/-- lodash `map` over a callback that can throw: the first thrown error
aborts and propagates. -/
def mapExcept (f : JSValue → Except JsError (List Char)) :
    List JSValue → Except JsError (List (List Char))
  | [] => .ok []
  | x :: xs =>
    match f x with
    | .error e => .error e
    | .ok y =>
      match mapExcept f xs with
      | .error e => .error e
      | .ok ys => .ok (y :: ys)

/-- Source: `serializeKeyToString(key, keyPath)`. -/
def serializeKeyToString (key : JSValue) (keyPath : KeyPathType) :
    Except JsError (List Char) :=
  if isCompoundKeyPath keyPath then
    match key with
    | .arr ks =>
      (mapExcept serializeValueToOrderableString ks).map
        (List.intercalate keypathJoinerString)
    | k => .error (.serializeShapeMismatch true k keyPath)
  else
    match key with
    | .arr ks => .error (.serializeShapeMismatch false (.arr ks) keyPath)
    | k => serializeValueToOrderableString k

/-- Source: `getSerializedKeyForKeypath(obj, keyPathRaw)`; `ok none` is the
`undefined` result. -/
def getSerializedKeyForKeypath (obj : JSValue) (keyPathRaw : KeyPathType) :
    Except JsError (Option (List Char)) :=
  match getKeyForKeypath obj keyPathRaw with
  | none => .ok none
  | some values => (serializeKeyToString values keyPathRaw).map some

/-- Source: `formListOfKeys(keyOrKeys, keyPath)`. -/
def formListOfKeys (keyOrKeys : JSValue) (keyPath : KeyPathType) :
    Except JsError (List JSValue) :=
  if isCompoundKeyPath keyPath then
    match keyOrKeys with
    | .arr xs =>
      match xs.headD .undefinedV with
      | .arr _ => .ok xs
      | _ => .ok [.arr xs]
    | v => .error (.formListShapeMismatch keyPath v)
  else .ok (arrayifyKey keyOrKeys)

/-- Value of a big-endian base-10 digit list. -/
def beVal : List ℕ → ℕ
  | [] => 0
  | d :: t => d * 10 ^ t.length + beVal t

/-- Value of a big-endian digit list read as the fraction `0.d₁d₂…`. -/
def fracVal (l : List ℕ) : ℚ := (beVal l : ℚ) / 10 ^ l.length

/-- The digit list (with leading zero padding) that `formatFixed v 4`
prints, for `0 ≤ v ≤ 9999`. -/
def field4digits (v : ℤ) : List ℕ :=
  List.replicate (4 - (natDigits v.toNat).length) 0 ++ (natDigits v.toNat).reverse

/-- The supported exponent range of the number encoding: `⌊log10 |v|⌋`
within ±1024, so that the biased exponent fields stay 4 digits wide. -/
def expInRange (d : Dec) : Prop :=
  d.man = 0 ∨ (-1024 ≤ d.log10floor ∧ d.log10floor ≤ 1024)

instance (d : Dec) : Decidable (expInRange d) := by
  unfold expInRange
  infer_instance

/-- For a negative number, the mantissa complement `10 - m` that the encoder
prints stays at least `10⁻⁶`, so its textual form avoids scientific
notation. -/
def negComplementPrintable (d : Dec) : Prop :=
  0 ≤ d.man ∨ (10 : ℚ) ^ (-6 : ℤ) ≤ (Dec.sub ⟨10, 0⟩ (mantDec d)).val

/-- The three runtime types accepted by `serializeValueToOrderableString`:
number, `Date`, string. -/
def isSupportedScalar : JSValue → Bool
  | .num _ => true
  | .date _ => true
  | .str _ => true
  | _ => false

/-- The claims' `encodeScalar a < encodeScalar b`: both encodings succeed and
compare lexicographically (JavaScript string `<` is code-unit lexicographic
order, `List.Lex (· < ·)` on the character lists). -/
def encLt : Except JsError (List Char) → Except JsError (List Char) → Prop
  | .ok x, .ok y => List.Lex (· < ·) x y
  | _, _ => False

instance (a b : Except JsError (List Char)) : Decidable (encLt a b) :=
  match a, b with
  | .ok x, .ok y => (inferInstance : Decidable (List.Lex (· < ·) x y))
  | .ok _, .error _ => isFalse fun h => h
  | .error _, .ok _ => isFalse fun h => h
  | .error _, .error _ => isFalse fun h => h

/-! ## Helper lemmas -/

/-- `serializeValueToOrderableString` only ever throws the unsupported-type
error. -/
theorem serializeValue_error_unsupported (v : JSValue) (e : JsError)
    (h : serializeValueToOrderableString v = .error e) :
    ∃ t, e = .unsupportedKeyType t := by
  cases v <;>
    first
      | exact Except.noConfusion h
      | (injection h with h2; exact ⟨_, h2.symm⟩)

/-- Mapping the scalar encoder over a list either succeeds or surfaces an
unsupported-type error from some component. -/
theorem mapExcept_serialize_ok_or_unsupported (xs : List JSValue) :
    (∃ ys, mapExcept serializeValueToOrderableString xs = .ok ys) ∨
      ∃ t, mapExcept serializeValueToOrderableString xs =
        .error (.unsupportedKeyType t) := by
  induction xs with
  | nil => exact .inl ⟨[], rfl⟩
  | cons x xs ih =>
    cases hx : serializeValueToOrderableString x with
    | error e =>
      obtain ⟨t, rfl⟩ := serializeValue_error_unsupported x e hx
      exact .inr ⟨t, by simp [mapExcept, hx]⟩
    | ok y =>
      rcases ih with ⟨ys, hys⟩ | ⟨t, ht⟩
      · exact .inl ⟨y :: ys, by simp [mapExcept, hx, hys]⟩
      · exact .inr ⟨t, by simp [mapExcept, hx, ht]⟩

/-! ## Digit-list machinery -/

theorem natDigitsAux_eq (fuel : ℕ) : ∀ n, n ≤ fuel → natDigitsAux fuel n = Nat.digits 10 n := by
  induction fuel with
  | zero =>
    intro n hn
    have h0 : n = 0 := Nat.le_zero.mp hn
    subst h0
    simp [natDigitsAux]
  | succ f ih =>
    intro n hn
    by_cases h0 : n = 0
    · subst h0; simp [natDigitsAux]
    · rw [natDigitsAux, if_neg h0, Nat.digits_def' (by norm_num) (Nat.pos_of_ne_zero h0),
        ih (n / 10)]
      exact Nat.le_of_lt_succ
        (Nat.lt_of_lt_of_le (Nat.div_lt_self (Nat.pos_of_ne_zero h0) (by norm_num)) hn)

theorem natDigits_eq (n : ℕ) : natDigits n = Nat.digits 10 n :=
  natDigitsAux_eq n n le_rfl

theorem beVal_append (a b : List ℕ) :
    beVal (a ++ b) = beVal a * 10 ^ b.length + beVal b := by
  induction a with
  | nil => simp [beVal]
  | cons d t ih =>
    show d * 10 ^ (t ++ b).length + beVal (t ++ b) =
      (d * 10 ^ t.length + beVal t) * 10 ^ b.length + beVal b
    rw [ih, List.length_append]
    ring

theorem beVal_replicate_zero (z : ℕ) : beVal (List.replicate z 0) = 0 := by
  induction z with
  | zero => rfl
  | succ z ih => simp [List.replicate_succ, beVal, ih]

theorem beVal_lt (l : List ℕ) (h : ∀ d ∈ l, d < 10) : beVal l < 10 ^ l.length := by
  induction l with
  | nil => simp [beVal]
  | cons d t ih =>
    have hd : d < 10 := h d (List.mem_cons_self d t)
    have ht : beVal t < 10 ^ t.length := ih fun x hx => h x (List.mem_cons_of_mem d hx)
    have : d * 10 ^ t.length + beVal t < (d + 1) * 10 ^ t.length := by nlinarith
    calc beVal (d :: t) = d * 10 ^ t.length + beVal t := rfl
      _ < (d + 1) * 10 ^ t.length := this
      _ ≤ 10 * 10 ^ t.length := Nat.mul_le_mul_right _ hd
      _ = 10 ^ (d :: t).length := by rw [List.length_cons]; ring

theorem beVal_pos : ∀ (l : List ℕ) (hne : l ≠ []), l.getLast hne ≠ 0 → 0 < beVal l := by
  intro l
  induction l with
  | nil => intro hne; exact absurd rfl hne
  | cons d t ih =>
    intro hne hlast
    cases t with
    | nil =>
      simp only [List.getLast_singleton] at hlast
      simpa [beVal] using Nat.pos_of_ne_zero hlast
    | cons e s =>
      have h2 : (e :: s).getLast (by simp) ≠ 0 := by
        rwa [List.getLast_cons (by simp)] at hlast
      have h3 := ih (by simp) h2
      show 0 < d * 10 ^ (e :: s).length + beVal (e :: s)
      exact Nat.lt_of_lt_of_le h3 (Nat.le_add_left _ _)

theorem beVal_reverse_eq_ofDigits (l : List ℕ) : beVal l.reverse = Nat.ofDigits 10 l := by
  induction l with
  | nil => rfl
  | cons d t ih =>
    rw [List.reverse_cons, beVal_append, ih, Nat.ofDigits_cons]
    simp [beVal]
    ring

theorem beVal_reverse_digits (n : ℕ) : beVal (Nat.digits 10 n).reverse = n := by
  rw [beVal_reverse_eq_ofDigits, Nat.ofDigits_digits]

theorem drop_length_takeWhile {α : Type} (p : α → Bool) (l : List α) :
    l.drop (l.takeWhile p).length = l.dropWhile p := by
  induction l with
  | nil => rfl
  | cons a t ih =>
    by_cases hp : p a
    · simp [List.takeWhile_cons, List.dropWhile_cons, hp, ih]
    · simp [List.takeWhile_cons, List.dropWhile_cons, hp]

theorem dropWhile_head_not {α : Type} (p : α → Bool) :
    ∀ (l : List α) (a : α) (t : List α), l.dropWhile p = a :: t → p a = false := by
  intro l
  induction l with
  | nil => intro a t h; exact absurd h (by simp)
  | cons b s ih =>
    intro a t h
    rw [List.dropWhile_cons] at h
    cases hb : p b with
    | true =>
      rw [hb, if_pos rfl] at h
      exact ih a t h
    | false =>
      rw [hb, if_neg (by simp)] at h
      injection h with h1 _
      rw [← h1]
      exact hb

/-! ## Character-level lexicographic machinery -/

theorem digitChar_mono_fin : ∀ a b : Fin 10, a.val < b.val →
    Nat.digitChar a.val < Nat.digitChar b.val := by decide

theorem digitChar_mono {a b : ℕ} (ha : a < 10) (hb : b < 10) (h : a < b) :
    Nat.digitChar a < Nat.digitChar b :=
  digitChar_mono_fin ⟨a, ha⟩ ⟨b, hb⟩ h

theorem zero_le_digitChar_fin : ∀ a : Fin 10, '0' ≤ Nat.digitChar a.val := by decide

theorem zero_le_digitChar {a : ℕ} (ha : a < 10) : '0' ≤ Nat.digitChar a :=
  zero_le_digitChar_fin ⟨a, ha⟩

theorem lex_append_left (p : List Char) {x y : List Char}
    (h : List.Lex (· < ·) x y) : List.Lex (· < ·) (p ++ x) (p ++ y) := by
  induction p with
  | nil => exact h
  | cons c t ih => exact List.Lex.cons ih

theorem lex_append_of_eqlen {a b : List Char} (x y : List Char)
    (hlen : a.length = b.length) (h : List.Lex (· < ·) a b) :
    List.Lex (· < ·) (a ++ x) (b ++ y) := by
  induction h with
  | nil => simp at hlen
  | rel hr => exact List.Lex.rel hr
  | cons _ ih => exact List.Lex.cons (ih (by simpa using hlen))

theorem lex_of_digit_lists :
    ∀ (l1 l2 : List ℕ), l1.length = l2.length → (∀ d ∈ l1, d < 10) →
      (∀ d ∈ l2, d < 10) → beVal l1 < beVal l2 →
      List.Lex (· < ·) (l1.map Nat.digitChar) (l2.map Nat.digitChar) := by
  intro l1
  induction l1 with
  | nil =>
    intro l2 hlen _ _ hv
    cases l2 with
    | nil => exact absurd hv (by simp [beVal])
    | cons d t => simp at hlen
  | cons d1 t1 ih =>
    intro l2 hlen h1 h2 hv
    cases l2 with
    | nil => simp at hlen
    | cons d2 t2 =>
      have hlen2 : t1.length = t2.length := by simpa using hlen
      have hd1 : d1 < 10 := h1 d1 (List.mem_cons_self d1 t1)
      have hd2 : d2 < 10 := h2 d2 (List.mem_cons_self d2 t2)
      have hb1 : beVal t1 < 10 ^ t1.length :=
        beVal_lt t1 fun x hx => h1 x (List.mem_cons_of_mem _ hx)
      have hb2 : beVal t2 < 10 ^ t2.length :=
        beVal_lt t2 fun x hx => h2 x (List.mem_cons_of_mem _ hx)
      rcases lt_trichotomy d1 d2 with hlt | heq | hgt
      · exact List.Lex.rel (digitChar_mono hd1 hd2 hlt)
      · subst heq
        have hv2 : beVal t1 < beVal t2 := by
          simp only [beVal, hlen2] at hv
          omega
        exact List.Lex.cons (ih t2 hlen2
          (fun x hx => h1 x (List.mem_cons_of_mem _ hx))
          (fun x hx => h2 x (List.mem_cons_of_mem _ hx)) hv2)
      · exfalso
        simp only [beVal, hlen2] at hv
        nlinarith

/-! ## Fraction strings -/

theorem fracVal_nil : fracVal [] = 0 := by
  simp [fracVal, beVal]

theorem fracVal_nonneg (l : List ℕ) : 0 ≤ fracVal l := by
  unfold fracVal
  positivity

theorem fracVal_lt_one (l : List ℕ) (h : ∀ d ∈ l, d < 10) : fracVal l < 1 := by
  unfold fracVal
  rw [div_lt_one (by positivity)]
  exact_mod_cast beVal_lt l h

theorem fracVal_pos (l : List ℕ) (hne : l ≠ []) (hlast : l.getLast hne ≠ 0) :
    0 < fracVal l := by
  unfold fracVal
  apply div_pos _ (by positivity)
  exact_mod_cast beVal_pos l hne hlast

theorem fracVal_cons (d : ℕ) (t : List ℕ) :
    fracVal (d :: t) = ((d : ℚ) + fracVal t) / 10 := by
  unfold fracVal
  show ((d * 10 ^ t.length + beVal t : ℕ) : ℚ) / 10 ^ (d :: t).length = _
  rw [List.length_cons]
  push_cast
  have h10 : ((10 : ℚ) ^ t.length) ≠ 0 := by positivity
  rw [pow_succ]
  field_simp

theorem lex_frac_lists :
    ∀ (l1 l2 : List ℕ), (∀ d ∈ l1, d < 10) → (∀ d ∈ l2, d < 10) →
      (∀ h : l1 ≠ [], l1.getLast h ≠ 0) → (∀ h : l2 ≠ [], l2.getLast h ≠ 0) →
      fracVal l1 < fracVal l2 →
      List.Lex (· < ·) (l1.map Nat.digitChar) (l2.map Nat.digitChar) := by
  intro l1
  induction l1 with
  | nil =>
    intro l2 _ _ _ _ hv
    cases l2 with
    | nil => rw [fracVal_nil] at hv; exact absurd hv (lt_irrefl 0)
    | cons d t => exact List.Lex.nil
  | cons d1 t1 ih =>
    intro l2 h1 h2 hl1 hl2 hv
    cases l2 with
    | nil =>
      rw [fracVal_nil] at hv
      exact absurd (lt_of_le_of_lt (fracVal_nonneg _) hv) (lt_irrefl 0)
    | cons d2 t2 =>
      rw [fracVal_cons, fracVal_cons] at hv
      have hv2 : (d1 : ℚ) + fracVal t1 < (d2 : ℚ) + fracVal t2 := by
        have h3 := mul_lt_mul_of_pos_right hv (by norm_num : (0:ℚ) < 10)
        rwa [div_mul_cancel₀ _ (by norm_num), div_mul_cancel₀ _ (by norm_num)] at h3
      have hd1 : d1 < 10 := h1 _ (List.mem_cons_self _ _)
      have hd2 : d2 < 10 := h2 _ (List.mem_cons_self _ _)
      have ht1 : ∀ d ∈ t1, d < 10 := fun x hx => h1 x (List.mem_cons_of_mem _ hx)
      have ht2 : ∀ d ∈ t2, d < 10 := fun x hx => h2 x (List.mem_cons_of_mem _ hx)
      rcases lt_trichotomy d1 d2 with hlt | heq | hgt
      · exact List.Lex.rel (digitChar_mono hd1 hd2 hlt)
      · subst heq
        have hlt1 : ∀ h : t1 ≠ [], t1.getLast h ≠ 0 := by
          intro h
          have h4 := hl1 (by simp)
          rwa [List.getLast_cons h] at h4
        have hlt2 : ∀ h : t2 ≠ [], t2.getLast h ≠ 0 := by
          intro h
          have h4 := hl2 (by simp)
          rwa [List.getLast_cons h] at h4
        exact List.Lex.cons (ih t2 ht1 ht2 hlt1 hlt2 (by linarith))
      · exfalso
        have hf1 : 0 ≤ fracVal t1 := fracVal_nonneg _
        have hf2 : fracVal t2 < 1 := fracVal_lt_one _ ht2
        have h5 : (d2 : ℚ) + 1 ≤ d1 := by exact_mod_cast hgt
        linarith

/-! ## Decimal arithmetic lemmas -/

theorem Dec.val_pos_iff (d : Dec) : 0 < d.val ↔ 0 < d.man := by
  have hp : (0:ℚ) < (10:ℚ) ^ d.exp := zpow_pos (by norm_num) _
  rw [Dec.val]
  constructor
  · intro h
    by_contra hm
    push_neg at hm
    have h2 : (d.man : ℚ) ≤ 0 := by exact_mod_cast hm
    nlinarith
  · intro h
    have h2 : (0:ℚ) < d.man := by exact_mod_cast h
    exact mul_pos h2 hp

theorem Dec.val_neg_iff (d : Dec) : d.val < 0 ↔ d.man < 0 := by
  have hp : (0:ℚ) < (10:ℚ) ^ d.exp := zpow_pos (by norm_num) _
  rw [Dec.val]
  constructor
  · intro h
    by_contra hm
    push_neg at hm
    have h2 : (0:ℚ) ≤ d.man := by exact_mod_cast hm
    nlinarith
  · intro h
    have h2 : (d.man : ℚ) < 0 := by exact_mod_cast h
    exact mul_neg_of_neg_of_pos h2 hp

theorem Dec.val_eq_zero_iff (d : Dec) : d.val = 0 ↔ d.man = 0 := by
  have hp : (10:ℚ) ^ d.exp ≠ 0 := ne_of_gt (zpow_pos (by norm_num) _)
  rw [Dec.val, mul_eq_zero]
  simp [hp]

theorem absDec_natAbs (d : Dec) : (absDec d).man.natAbs = d.man.natAbs := by
  unfold absDec
  by_cases h : d.man < 0 <;> simp [h, Int.natAbs_neg]

theorem absDec_exp (d : Dec) : (absDec d).exp = d.exp := by
  unfold absDec
  by_cases h : d.man < 0 <;> simp [h]

theorem absDec_man_pos (d : Dec) (h : d.man ≠ 0) : 0 < (absDec d).man := by
  unfold absDec
  by_cases h2 : d.man < 0 <;> simp [h2] <;> omega

theorem val_absDec (d : Dec) : (absDec d).val = |d.val| := by
  unfold absDec
  by_cases h : d.man < 0
  · have hv : d.val < 0 := (Dec.val_neg_iff d).mpr h
    rw [if_pos h, abs_of_neg hv, Dec.val, Dec.val]
    push_cast
    ring
  · push_neg at h
    have hv : 0 ≤ d.val := by
      rw [Dec.val]
      have h2 : (0:ℚ) ≤ d.man := by exact_mod_cast h
      exact mul_nonneg h2 (le_of_lt (zpow_pos (by norm_num) _))
    rw [if_neg (by omega), abs_of_nonneg hv]

theorem log10floor_absDec (d : Dec) : (absDec d).log10floor = d.log10floor := by
  unfold Dec.log10floor
  rw [absDec_natAbs, absDec_exp]

theorem log10floor_spec (d : Dec) (h : d.man ≠ 0) :
    (10:ℚ) ^ d.log10floor ≤ |d.val| ∧ |d.val| < 10 ^ (d.log10floor + 1) := by
  have hm0 : d.man.natAbs ≠ 0 := Int.natAbs_ne_zero.mpr h
  have habs : |d.val| = (d.man.natAbs : ℚ) * 10 ^ d.exp := by
    have hp : (0:ℚ) < (10:ℚ) ^ d.exp := zpow_pos (by norm_num) _
    rw [Dec.val, abs_mul, abs_of_pos hp, Int.cast_natAbs, Int.cast_abs]
  have hlen : natDigits d.man.natAbs = Nat.digits 10 d.man.natAbs := natDigits_eq _
  have hne : Nat.digits 10 d.man.natAbs ≠ [] := Nat.digits_ne_nil_iff_ne_zero.mpr hm0
  have hL1 : 1 ≤ (Nat.digits 10 d.man.natAbs).length := List.length_pos.mpr hne
  have hupper : d.man.natAbs < 10 ^ (Nat.digits 10 d.man.natAbs).length :=
    Nat.lt_base_pow_length_digits (by norm_num)
  have hlower : 10 ^ ((Nat.digits 10 d.man.natAbs).length - 1) ≤ d.man.natAbs := by
    have h3 := Nat.base_pow_length_digits_le 10 d.man.natAbs (by norm_num) hm0
    have h4 : 10 ^ (Nat.digits 10 d.man.natAbs).length =
        10 * 10 ^ ((Nat.digits 10 d.man.natAbs).length - 1) := by
      rw [← pow_succ']
      congr 1
      omega
    rw [h4] at h3
    exact Nat.le_of_mul_le_mul_left h3 (by norm_num)
  have hfl : d.log10floor = ((Nat.digits 10 d.man.natAbs).length : ℤ) - 1 + d.exp := by
    rw [Dec.log10floor, hlen]
  constructor
  · rw [habs, hfl]
    have h5 : (10:ℚ) ^ (((Nat.digits 10 d.man.natAbs).length : ℤ) - 1 + d.exp) =
        (10:ℚ) ^ (((Nat.digits 10 d.man.natAbs).length : ℤ) - 1) * 10 ^ d.exp := by
      rw [zpow_add₀ (by norm_num : (10:ℚ) ≠ 0)]
    rw [h5]
    apply mul_le_mul_of_nonneg_right _ (le_of_lt (zpow_pos (by norm_num) _))
    have h6 : (((Nat.digits 10 d.man.natAbs).length : ℤ) - 1) =
        (((Nat.digits 10 d.man.natAbs).length - 1 : ℕ) : ℤ) := by omega
    rw [h6, zpow_natCast]
    exact_mod_cast hlower
  · rw [habs, hfl]
    have h5 : (10:ℚ) ^ (((Nat.digits 10 d.man.natAbs).length : ℤ) - 1 + d.exp + 1) =
        (10:ℚ) ^ ((Nat.digits 10 d.man.natAbs).length : ℤ) * 10 ^ d.exp := by
      rw [← zpow_add₀ (by norm_num : (10:ℚ) ≠ 0)]
      congr 1
      ring
    rw [h5]
    apply mul_lt_mul_of_pos_right _ (zpow_pos (by norm_num) _)
    rw [zpow_natCast]
    exact_mod_cast hupper

theorem mantDec_man_pos (d : Dec) (h : d.man ≠ 0) : 0 < (mantDec d).man :=
  absDec_man_pos d h

theorem mantDec_val (d : Dec) : (mantDec d).val = |d.val| / 10 ^ d.log10floor := by
  have h1 : (mantDec d).val = (absDec d).val * (10:ℚ) ^ (- d.log10floor) := by
    unfold mantDec Dec.val
    rw [log10floor_absDec, sub_eq_add_neg, zpow_add₀ (by norm_num : (10:ℚ) ≠ 0)]
    ring
  rw [h1, val_absDec, zpow_neg]
  rw [div_eq_mul_inv]

theorem mant_bounds (d : Dec) (h : d.man ≠ 0) :
    1 ≤ (mantDec d).val ∧ (mantDec d).val < 10 := by
  obtain ⟨hlo, hhi⟩ := log10floor_spec d h
  have hp : (0:ℚ) < 10 ^ d.log10floor := zpow_pos (by norm_num) _
  rw [mantDec_val d]
  constructor
  · exact (one_le_div hp).mpr hlo
  · rw [div_lt_iff₀ hp]
    rw [zpow_add₀ (by norm_num : (10:ℚ) ≠ 0)] at hhi
    calc |d.val| < 10 ^ d.log10floor * 10 ^ (1:ℤ) := hhi
      _ = 10 * 10 ^ d.log10floor := by rw [zpow_one]; ring

theorem val_sub (a b : Dec) : (Dec.sub a b).val = a.val - b.val := by
  unfold Dec.sub Dec.val
  have hma : min a.exp b.exp ≤ a.exp := min_le_left _ _
  have hmb : min a.exp b.exp ≤ b.exp := min_le_right _ _
  have ha : ((a.exp - min a.exp b.exp).toNat : ℤ) = a.exp - min a.exp b.exp :=
    Int.toNat_of_nonneg (by omega)
  have hb : ((b.exp - min a.exp b.exp).toNat : ℤ) = b.exp - min a.exp b.exp :=
    Int.toNat_of_nonneg (by omega)
  have e1 : (10:ℚ) ^ ((a.exp - min a.exp b.exp).toNat) * 10 ^ (min a.exp b.exp) =
      10 ^ a.exp := by
    rw [← zpow_natCast (10:ℚ), ha, ← zpow_add₀ (by norm_num : (10:ℚ) ≠ 0)]
    congr 1
    ring
  have e2 : (10:ℚ) ^ ((b.exp - min a.exp b.exp).toNat) * 10 ^ (min a.exp b.exp) =
      10 ^ b.exp := by
    rw [← zpow_natCast (10:ℚ), hb, ← zpow_add₀ (by norm_num : (10:ℚ) ≠ 0)]
    congr 1
    ring
  calc ((a.man * 10 ^ (a.exp - min a.exp b.exp).toNat -
          b.man * 10 ^ (b.exp - min a.exp b.exp).toNat : ℤ) : ℚ) *
        10 ^ (min a.exp b.exp)
      = (a.man : ℚ) * ((10:ℚ) ^ ((a.exp - min a.exp b.exp).toNat) * 10 ^ (min a.exp b.exp)) -
        (b.man : ℚ) * ((10:ℚ) ^ ((b.exp - min a.exp b.exp).toNat) * 10 ^ (min a.exp b.exp)) := by
        push_cast
        ring
    _ = (a.man : ℚ) * 10 ^ a.exp - (b.man : ℚ) * 10 ^ b.exp := by rw [e1, e2]

theorem val_ten : (Dec.mk 10 0).val = 10 := by
  norm_num [Dec.val]

/-! ## Significant-digit decomposition -/

theorem sigDigits_eq (m : ℕ) :
    sigDigits m = (Nat.digits 10 m).dropWhile (· == 0) := by
  unfold sigDigits trailingZeros
  rw [natDigits_eq]
  exact drop_length_takeWhile _ _

theorem takeWhile_zero_replicate (m : ℕ) :
    (Nat.digits 10 m).takeWhile (· == 0) = List.replicate (trailingZeros m) 0 := by
  rw [List.eq_replicate_iff]
  constructor
  · unfold trailingZeros
    rw [natDigits_eq]
  · intro b hb
    have := List.mem_takeWhile_imp hb
    simpa using this

theorem digits_decomp (m : ℕ) :
    Nat.digits 10 m = List.replicate (trailingZeros m) 0 ++ sigDigits m := by
  conv_lhs => rw [← List.takeWhile_append_dropWhile (fun d => d == 0) (Nat.digits 10 m)]
  rw [takeWhile_zero_replicate, ← sigDigits_eq]

theorem len_decomp (m : ℕ) :
    (Nat.digits 10 m).length = trailingZeros m + (sigDigits m).length := by
  conv_lhs => rw [digits_decomp m]
  simp

theorem sigDigits_ne_nil (m : ℕ) (h : m ≠ 0) : sigDigits m ≠ [] := by
  rw [sigDigits_eq]
  intro hc
  rw [List.dropWhile_eq_nil_iff] at hc
  have hne : Nat.digits 10 m ≠ [] := Nat.digits_ne_nil_iff_ne_zero.mpr h
  have hlast := Nat.getLast_digit_ne_zero 10 h
  exact hlast (by simpa using hc _ (List.getLast_mem hne))

theorem sigDigits_head_ne (m : ℕ) (a : ℕ) (t : List ℕ)
    (h : sigDigits m = a :: t) : a ≠ 0 := by
  rw [sigDigits_eq] at h
  have := dropWhile_head_not _ _ _ _ h
  simpa using this

theorem sigDigits_getLast (m : ℕ) (h : m ≠ 0) (hne : sigDigits m ≠ []) :
    (sigDigits m).getLast hne ≠ 0 := by
  have hd : Nat.digits 10 m = List.replicate (trailingZeros m) 0 ++ sigDigits m :=
    digits_decomp m
  have hne2 : Nat.digits 10 m ≠ [] := Nat.digits_ne_nil_iff_ne_zero.mpr h
  have hlast := Nat.getLast_digit_ne_zero 10 h
  have h3 : (Nat.digits 10 m).getLast hne2 = (sigDigits m).getLast hne := by
    simp only [hd]
    rw [List.getLast_append]
    rw [dif_neg (by simpa using hne)]
  rwa [h3] at hlast

theorem sigDigits_lt (m : ℕ) : ∀ x ∈ sigDigits m, x < 10 := by
  intro x hx
  rw [sigDigits_eq] at hx
  exact Nat.digits_lt_base (by norm_num)
    ((List.dropWhile_sublist _).mem hx)

theorem beVal_sig (m : ℕ) :
    beVal (sigDigits m).reverse * 10 ^ trailingZeros m = m := by
  have h1 : (Nat.digits 10 m).reverse =
      (sigDigits m).reverse ++ List.replicate (trailingZeros m) 0 := by
    conv_lhs => rw [digits_decomp m]
    rw [List.reverse_append, List.reverse_replicate]
  have h2 := beVal_reverse_digits m
  rw [h1, beVal_append, beVal_replicate_zero, List.length_replicate] at h2
  omega

theorem digits_sigVal (m : ℕ) (h : m ≠ 0) :
    Nat.digits 10 (beVal (sigDigits m).reverse) = sigDigits m := by
  rw [beVal_reverse_eq_ofDigits]
  exact Nat.digits_ofDigits 10 (by norm_num) _ (sigDigits_lt m) (sigDigits_getLast m h)

theorem sigVal_lt (m : ℕ) (h : m ≠ 0) :
    beVal (sigDigits m).reverse < 10 ^ (sigDigits m).length := by
  have h1 : beVal (sigDigits m).reverse <
      10 ^ (Nat.digits 10 (beVal (sigDigits m).reverse)).length :=
    Nat.lt_base_pow_length_digits (by norm_num)
  rwa [digits_sigVal m h] at h1

theorem sigVal_pos (m : ℕ) (h : m ≠ 0) : 0 < beVal (sigDigits m).reverse := by
  have hne : (sigDigits m).reverse ≠ [] := by
    simpa using sigDigits_ne_nil m h
  have hlast : (sigDigits m).reverse.getLast hne ≠ 0 := by
    rw [List.getLast_reverse]
    obtain ⟨a, t, hat⟩ := List.exists_cons_of_ne_nil (sigDigits_ne_nil m h)
    have ha := sigDigits_head_ne m a t hat
    simp only [hat, List.head_cons]
    exact ha
  exact beVal_pos _ hne hlast

theorem le_sigVal (m : ℕ) (h : m ≠ 0) :
    10 ^ ((sigDigits m).length - 1) ≤ beVal (sigDigits m).reverse := by
  have hS0 : beVal (sigDigits m).reverse ≠ 0 := (sigVal_pos m h).ne'
  have h3 := Nat.base_pow_length_digits_le 10 _ (by norm_num) hS0
  rw [digits_sigVal m h] at h3
  have hk : 1 ≤ (sigDigits m).length := List.length_pos.mpr (sigDigits_ne_nil m h)
  have h4 : 10 ^ (sigDigits m).length = 10 * 10 ^ ((sigDigits m).length - 1) := by
    rw [← pow_succ']
    congr 1
    omega
  rw [h4] at h3
  exact Nat.le_of_mul_le_mul_left h3 (by norm_num)

/-! ## Structure of the decimal printer -/

theorem decToString_of_pos (d : Dec) (h : 0 < d.man) : decToString d = decBody d := by
  rw [decToString, if_neg (by omega), if_neg (by omega)]

theorem decBody_branch1 (d : Dec)
    (h : ((sigDigits d.man.natAbs).length : ℤ) ≤ decPos d ∧ decPos d ≤ 21) :
    decBody d = decChars d ++
      List.replicate (decPos d - (sigDigits d.man.natAbs).length).toNat '0' := by
  simp only [decBody]
  rw [if_pos h]

theorem decBody_branch2 (d : Dec)
    (h1 : ¬ (((sigDigits d.man.natAbs).length : ℤ) ≤ decPos d ∧ decPos d ≤ 21))
    (h2 : 0 < decPos d ∧ decPos d ≤ 21) :
    decBody d = (decChars d).take (decPos d).toNat ++
      '.' :: (decChars d).drop (decPos d).toNat := by
  simp only [decBody]
  rw [if_neg h1, if_pos h2]

theorem decBody_branch3 (d : Dec)
    (h1 : ¬ (((sigDigits d.man.natAbs).length : ℤ) ≤ decPos d ∧ decPos d ≤ 21))
    (h2 : ¬ (0 < decPos d ∧ decPos d ≤ 21))
    (h3 : -6 < decPos d ∧ decPos d ≤ 0) :
    decBody d = '0' :: '.' ::
      (List.replicate (- decPos d).toNat '0' ++ decChars d) := by
  simp only [decBody]
  rw [if_neg h1, if_neg h2, if_pos h3]

theorem decPos_ofNat (v : ℕ) :
    decPos ⟨(v : ℤ), 0⟩ = ((Nat.digits 10 v).length : ℤ) := by
  show ((sigDigits v).length : ℤ) + (trailingZeros v : ℤ) + 0 = _
  rw [len_decomp v]
  push_cast
  ring

theorem decChars_ofNat (v : ℕ) :
    decChars ⟨(v : ℤ), 0⟩ = ((sigDigits v).reverse).map Nat.digitChar := rfl

theorem decToString_nat (v : ℕ) (h0 : v ≠ 0) (h21 : (Nat.digits 10 v).length ≤ 21) :
    decToString ⟨(v : ℤ), 0⟩ = ((Nat.digits 10 v).reverse).map Nat.digitChar := by
  have hman : 0 < ((v : ℤ)) := by exact_mod_cast Nat.pos_of_ne_zero h0
  rw [decToString_of_pos _ hman]
  have hlen := len_decomp v
  have hcond : ((sigDigits ((⟨(v : ℤ), 0⟩ : Dec)).man.natAbs).length : ℤ) ≤
      decPos ⟨(v : ℤ), 0⟩ ∧ decPos ⟨(v : ℤ), 0⟩ ≤ 21 := by
    show ((sigDigits v).length : ℤ) ≤ _ ∧ _
    rw [decPos_ofNat]
    omega
  rw [decBody_branch1 _ hcond, decChars_ofNat]
  have hrep : (decPos ⟨(v : ℤ), 0⟩ -
      ((sigDigits ((⟨(v : ℤ), 0⟩ : Dec)).man.natAbs).length : ℤ)).toNat =
      trailingZeros v := by
    show (decPos ⟨(v : ℤ), 0⟩ - ((sigDigits v).length : ℤ)).toNat = _
    rw [decPos_ofNat]
    omega
  rw [hrep]
  have hds : (Nat.digits 10 v).reverse =
      (sigDigits v).reverse ++ List.replicate (trailingZeros v) 0 := by
    conv_lhs => rw [digits_decomp v]
    rw [List.reverse_append, List.reverse_replicate]
  rw [hds, List.map_append, List.map_replicate]
  rfl

/-! ## The 4-digit exponent field -/

theorem formatFixed_eq (v : ℤ) (h0 : 0 ≤ v) (h : v ≤ 9999) :
    formatFixed v 4 = (field4digits v).map Nat.digitChar ∧
      (field4digits v).length = 4 ∧ (∀ x ∈ field4digits v, x < 10) ∧
      beVal (field4digits v) = v.toNat := by
  by_cases hv0 : v = 0
  · subst hv0
    exact ⟨by decide, by decide, by decide, by decide⟩
  · have hm : v.toNat ≠ 0 := by omega
    have hvm : ((v.toNat : ℤ)) = v := Int.toNat_of_nonneg h0
    have hL : (Nat.digits 10 v.toNat).length ≤ 4 := by
      have h3 := Nat.base_pow_length_digits_le 10 v.toNat (by norm_num) hm
      by_contra hc
      push_neg at hc
      have h4 : (10:ℕ) ^ 5 ≤ 10 ^ (Nat.digits 10 v.toNat).length :=
        Nat.pow_le_pow_right (by norm_num) hc
      have h5 : v.toNat ≤ 9999 := by omega
      omega
    have hdec : decToString ⟨v, 0⟩ =
        ((Nat.digits 10 v.toNat).reverse).map Nat.digitChar := by
      rw [← hvm]
      exact decToString_nat v.toNat hm (by omega)
    have hlenres : (decToString ⟨v, 0⟩).length = (Nat.digits 10 v.toNat).length := by
      rw [hdec, List.length_map, List.length_reverse]
    have hfield : field4digits v =
        List.replicate (4 - (Nat.digits 10 v.toNat).length) 0 ++
          (Nat.digits 10 v.toNat).reverse := by
      unfold field4digits
      rw [natDigits_eq]
    have hmap : (field4digits v).map Nat.digitChar =
        List.replicate (4 - (Nat.digits 10 v.toNat).length) '0' ++
          ((Nat.digits 10 v.toNat).reverse).map Nat.digitChar := by
      rw [hfield, List.map_append, List.map_replicate]
      rfl
    refine ⟨?_, ?_, ?_, ?_⟩
    · rw [hmap]
      simp only [formatFixed]
      rw [hlenres]
      by_cases h4 : (Nat.digits 10 v.toNat).length = 4
      · rw [if_neg (by rw [h4]; norm_num), hdec, h4]
        simp
      · have hlt : (Nat.digits 10 v.toNat).length < 4 := by omega
        have hL1 : 1 ≤ (Nat.digits 10 v.toNat).length :=
          List.length_pos.mpr (Nat.digits_ne_nil_iff_ne_zero.mpr hm)
        rw [if_pos (by simp [zeroes]; omega)]
        rw [hdec]
        congr 1
        show (List.replicate 16 '0').take _ = _
        rw [List.take_replicate]
        congr 1
        omega
    · rw [hfield]
      simp only [List.length_append, List.length_replicate, List.length_reverse]
      omega
    · intro x hx
      rw [hfield] at hx
      rcases List.mem_append.mp hx with hx | hx
      · have := List.eq_of_mem_replicate hx
        omega
      · exact Nat.digits_lt_base (by norm_num) (List.mem_reverse.mp hx)
    · rw [hfield, beVal_append, beVal_replicate_zero, beVal_reverse_digits]
      simp

theorem formatFixed_length4 (v : ℤ) (h0 : 0 ≤ v) (h : v ≤ 9999) :
    (formatFixed v 4).length = 4 := by
  obtain ⟨e1, l1, _, _⟩ := formatFixed_eq v h0 h
  rw [e1, List.length_map, l1]

theorem formatFixed_lt (x y : ℤ) (hx : 0 ≤ x) (hy : y ≤ 9999) (hxy : x < y) :
    List.Lex (· < ·) (formatFixed x 4) (formatFixed y 4) := by
  have hy0 : 0 ≤ y := le_trans hx (le_of_lt hxy)
  have hx9 : x ≤ 9999 := le_trans (le_of_lt hxy) hy
  obtain ⟨e1, l1, b1, v1⟩ := formatFixed_eq x hx hx9
  obtain ⟨e2, l2, b2, v2⟩ := formatFixed_eq y hy0 hy
  rw [e1, e2]
  apply lex_of_digit_lists _ _ (by rw [l1, l2]) b1 b2
  rw [v1, v2]
  exact (Int.toNat_lt_toNat (by omega)).mpr hxy

theorem sigRev_mem_lt (m : ℕ) : ∀ x ∈ (sigDigits m).reverse, x < 10 := by
  intro x hx
  exact sigDigits_lt m x (List.mem_reverse.mp hx)

theorem sigRev_getLast_ne (m : ℕ) (h : m ≠ 0) (hne : (sigDigits m).reverse ≠ []) :
    (sigDigits m).reverse.getLast hne ≠ 0 := by
  rw [List.getLast_reverse]
  obtain ⟨a, t, hat⟩ := List.exists_cons_of_ne_nil (sigDigits_ne_nil m h)
  have ha := sigDigits_head_ne m a t hat
  simp only [hat, List.head_cons]
  exact ha

theorem decPos_eq (d : Dec) : decPos d = d.log10floor + 1 := by
  unfold decPos Dec.log10floor
  rw [natDigits_eq, len_decomp]
  push_cast
  ring

theorem val_bounds_pos (d : Dec) (hm : 0 < d.man) :
    (10:ℚ) ^ (decPos d - 1) ≤ d.val ∧ d.val < 10 ^ decPos d := by
  have h := log10floor_spec d (by omega)
  have habs : |d.val| = d.val := abs_of_pos ((Dec.val_pos_iff d).mpr hm)
  rw [habs] at h
  rw [decPos_eq]
  constructor
  · have he : d.log10floor + 1 - 1 = d.log10floor := by ring
    rw [he]
    exact h.1
  · exact h.2

theorem val_eq_sig (d : Dec) (hm : 0 < d.man) :
    d.val = (beVal (sigDigits d.man.natAbs).reverse : ℚ) *
      (10:ℚ) ^ (decPos d - ((sigDigits d.man.natAbs).length : ℤ)) := by
  have hman : (d.man.natAbs : ℚ) = (d.man : ℚ) := by
    rw [Int.cast_natAbs]
    exact_mod_cast abs_of_pos hm
  have hq : (d.man.natAbs : ℚ) =
      (beVal (sigDigits d.man.natAbs).reverse : ℚ) *
        10 ^ trailingZeros d.man.natAbs := by
    exact_mod_cast (beVal_sig d.man.natAbs).symm
  have hnk : decPos d - ((sigDigits d.man.natAbs).length : ℤ) =
      (trailingZeros d.man.natAbs : ℤ) + d.exp := by
    unfold decPos
    ring
  rw [hnk]
  calc d.val = (d.man : ℚ) * 10 ^ d.exp := rfl
    _ = (d.man.natAbs : ℚ) * 10 ^ d.exp := by rw [hman]
    _ = (beVal (sigDigits d.man.natAbs).reverse : ℚ) *
        10 ^ trailingZeros d.man.natAbs * 10 ^ d.exp := by rw [hq]
    _ = (beVal (sigDigits d.man.natAbs).reverse : ℚ) *
        ((10:ℚ) ^ ((trailingZeros d.man.natAbs : ℕ) : ℤ) * 10 ^ d.exp) := by
        rw [zpow_natCast]
        ring
    _ = _ := by
        rw [← zpow_add₀ (by norm_num : (10:ℚ) ≠ 0)]

/-- Structure of the printed form of a positive decimal in `[10⁻⁶, 10)`:
one integer digit `I = ⌊val⌋`, then optionally a dot and a fraction whose
digit list has no trailing zeros and denotes exactly `val - I`. -/
theorem decToString_small (d : Dec) (hm : 0 < d.man)
    (hlo : (10:ℚ) ^ (-6 : ℤ) ≤ d.val) (hhi : d.val < 10) :
    ∃ (I : ℕ) (f : List ℕ),
      I < 10 ∧ (∀ x ∈ f, x < 10) ∧ (∀ h : f ≠ [], f.getLast h ≠ 0) ∧
      (I : ℚ) ≤ d.val ∧ d.val < (I : ℚ) + 1 ∧
      (I : ℚ) + fracVal f = d.val ∧
      decToString d = Nat.digitChar I ::
        (if f = [] then [] else '.' :: f.map Nat.digitChar) := by
  have hm0 : d.man.natAbs ≠ 0 := Int.natAbs_ne_zero.mpr (by omega)
  have hk1 : 1 ≤ (sigDigits d.man.natAbs).length :=
    List.length_pos.mpr (sigDigits_ne_nil d.man.natAbs hm0)
  have hval := val_eq_sig d hm
  have hbounds := val_bounds_pos d hm
  have hvpos : 0 < d.val := (Dec.val_pos_iff d).mpr hm
  -- range of the decimal-point position
  have hn_le : decPos d ≤ 1 := by
    by_contra hc
    push_neg at hc
    have h1 : (10:ℚ) ^ (1:ℤ) ≤ 10 ^ (decPos d - 1) :=
      zpow_le_zpow_right₀ (by norm_num) (by omega)
    rw [zpow_one] at h1
    linarith [hbounds.1]
  have hn_ge : -5 ≤ decPos d := by
    by_contra hc
    push_neg at hc
    have h1 : (10:ℚ) ^ decPos d ≤ 10 ^ (-6:ℤ) :=
      zpow_le_zpow_right₀ (by norm_num) (by omega)
    linarith [hbounds.2]
  have hSpos : 0 < beVal (sigDigits d.man.natAbs).reverse := sigVal_pos _ hm0
  have hrevne : (sigDigits d.man.natAbs).reverse ≠ [] := by
    simpa using sigDigits_ne_nil d.man.natAbs hm0
  have hrevlen : ((sigDigits d.man.natAbs).reverse).length =
      (sigDigits d.man.natAbs).length := List.length_reverse _
  rcases eq_or_lt_of_le hn_le with hn1 | hn0
  · -- decPos d = 1 : a plain `d` or `d.frac` form
    rcases eq_or_lt_of_le hk1 with hk_eq | hk_ge2
    · -- single significant digit
      obtain ⟨a, ha⟩ := List.length_eq_one.mp hk_eq.symm
      have haval : beVal (sigDigits d.man.natAbs).reverse = a := by
        rw [ha]
        simp [beVal]
      have ha10 : a < 10 := by
        apply sigDigits_lt d.man.natAbs
        rw [ha]
        exact List.mem_cons_self _ _
      have hvala : d.val = (a : ℚ) := by
        rw [hval, haval, ← hk_eq, hn1]
        norm_num
      refine ⟨a, [], ha10, by simp, by simp, le_of_eq hvala.symm,
        by rw [hvala]; norm_num, by rw [fracVal_nil, hvala]; ring, ?_⟩
      rw [decToString_of_pos d hm]
      rw [decBody_branch1 d ⟨by omega, by omega⟩]
      rw [if_pos rfl]
      have hrep : (decPos d - ((sigDigits d.man.natAbs).length : ℤ)).toNat = 0 := by
        omega
      rw [hrep]
      unfold decChars
      rw [ha]
      simp
    · -- at least two significant digits: `d.frac` form
      obtain ⟨a, rest, har⟩ :=
        List.exists_cons_of_ne_nil hrevne
      have hrest_len : rest.length = (sigDigits d.man.natAbs).length - 1 := by
        have := hrevlen
        rw [har] at this
        simp at this
        omega
      have hrest_ne : rest ≠ [] := by
        intro hc
        rw [hc] at hrest_len
        simp at hrest_len
        omega
      have ha10 : a < 10 := by
        apply sigRev_mem_lt d.man.natAbs
        rw [har]
        exact List.mem_cons_self _ _
      have hrest10 : ∀ x ∈ rest, x < 10 := by
        intro x hx
        apply sigRev_mem_lt d.man.natAbs
        rw [har]
        exact List.mem_cons_of_mem _ hx
      have hrest_last : ∀ h : rest ≠ [], rest.getLast h ≠ 0 := by
        intro h
        have h2 := sigRev_getLast_ne d.man.natAbs hm0 hrevne
        simp only [har] at h2
        rwa [List.getLast_cons h] at h2
      have hS : beVal (sigDigits d.man.natAbs).reverse =
          a * 10 ^ rest.length + beVal rest := by
        rw [har]
        rfl
      have hfrac : (a : ℚ) + fracVal rest = d.val := by
        rw [hval, hS]
        unfold fracVal
        have hkk : ((sigDigits d.man.natAbs).length : ℤ) - 1 =
            ((rest.length : ℕ) : ℤ) := by
          rw [hrest_len]
          omega
        have hzp : (10:ℚ) ^ (decPos d - ((sigDigits d.man.natAbs).length : ℤ)) =
            ((10:ℚ) ^ (rest.length : ℕ))⁻¹ := by
          rw [hn1]
          rw [show (1:ℤ) - ((sigDigits d.man.natAbs).length : ℤ) =
            -(((rest.length : ℕ)) : ℤ) from by omega]
          rw [zpow_neg, zpow_natCast]
        rw [hzp]
        push_cast
        have hne : ((10:ℚ) ^ (rest.length : ℕ)) ≠ 0 := by positivity
        field_simp
        try ring
      have hfr_nonneg : 0 ≤ fracVal rest := fracVal_nonneg _
      have hfr_lt : fracVal rest < 1 := fracVal_lt_one _ hrest10
      refine ⟨a, rest, ha10, hrest10, hrest_last, by linarith, by linarith,
        hfrac, ?_⟩
      rw [decToString_of_pos d hm]
      rw [decBody_branch2 d (by omega) ⟨by omega, by omega⟩]
      rw [if_neg hrest_ne]
      unfold decChars
      rw [har]
      have htoNat : (decPos d).toNat = 1 := by omega
      rw [htoNat]
      simp
  · -- decPos d ≤ 0 : the `0.zeros-digits` form
    have hn0' : decPos d ≤ 0 := by omega
    have hz : ((- decPos d).toNat : ℤ) = - decPos d := Int.toNat_of_nonneg (by omega)
    refine ⟨0, List.replicate (- decPos d).toNat 0 ++ (sigDigits d.man.natAbs).reverse,
      by norm_num, ?_, ?_, by exact_mod_cast le_of_lt hvpos, ?_, ?_, ?_⟩
    · intro x hx
      rcases List.mem_append.mp hx with hx | hx
      · have := List.eq_of_mem_replicate hx
        omega
      · exact sigRev_mem_lt _ x hx
    · intro h
      rw [List.getLast_append, dif_neg (by simpa using hrevne)]
      exact sigRev_getLast_ne _ hm0 _
    · -- val < 1
      have h1 : (10:ℚ) ^ decPos d ≤ 10 ^ (0:ℤ) :=
        zpow_le_zpow_right₀ (by norm_num) hn0'
      rw [zpow_zero] at h1
      push_cast
      linarith [hbounds.2]
    · -- fraction denotes the value
      rw [Nat.cast_zero, zero_add]
      unfold fracVal
      rw [beVal_append, beVal_replicate_zero, List.length_append,
        List.length_replicate, hrevlen]
      simp only [zero_mul, zero_add]
      rw [hval]
      have hzp : (10:ℚ) ^ (decPos d - ((sigDigits d.man.natAbs).length : ℤ)) =
          ((10:ℚ) ^ ((- decPos d).toNat + (sigDigits d.man.natAbs).length : ℕ))⁻¹ := by
        rw [show decPos d - ((sigDigits d.man.natAbs).length : ℤ) =
          -((((- decPos d).toNat + (sigDigits d.man.natAbs).length : ℕ)) : ℤ) from by
            push_cast
            omega]
        rw [zpow_neg, zpow_natCast]
      rw [hzp]
      rw [div_eq_mul_inv]
    · rw [decToString_of_pos d hm]
      rw [decBody_branch3 d (by omega) (by omega) ⟨by omega, hn0'⟩]
      rw [if_neg (by simp [hrevne])]
      unfold decChars
      rw [List.map_append, List.map_replicate]
      rfl

/-- Lexicographic comparison of two printed decimals in `[10⁻⁶, 10)`
agrees with their numeric order. -/
theorem decToString_lt (d1 d2 : Dec) (h1 : 0 < d1.man) (h2 : 0 < d2.man)
    (hlo1 : (10:ℚ) ^ (-6:ℤ) ≤ d1.val) (hhi1 : d1.val < 10)
    (hlo2 : (10:ℚ) ^ (-6:ℤ) ≤ d2.val) (hhi2 : d2.val < 10)
    (hv : d1.val < d2.val) :
    List.Lex (· < ·) (decToString d1) (decToString d2) := by
  obtain ⟨I1, f1, hI1, hf1b, hf1l, hI1le, hI1lt, hfr1, he1⟩ :=
    decToString_small d1 h1 hlo1 hhi1
  obtain ⟨I2, f2, hI2, hf2b, hf2l, hI2le, hI2lt, hfr2, he2⟩ :=
    decToString_small d2 h2 hlo2 hhi2
  rw [he1, he2]
  rcases lt_trichotomy I1 I2 with hlt | heq | hgt
  · exact List.Lex.rel (digitChar_mono hI1 hI2 hlt)
  · subst heq
    apply List.Lex.cons
    by_cases hf1 : f1 = []
    · subst hf1
      rw [if_pos rfl]
      have hval1 : d1.val = I1 := by rw [← hfr1, fracVal_nil]; ring
      by_cases hf2 : f2 = []
      · exfalso
        have hval2 : d2.val = I1 := by rw [← hfr2, hf2, fracVal_nil]; ring
        rw [hval1, hval2] at hv
        exact lt_irrefl _ hv
      · rw [if_neg hf2]
        obtain ⟨c, ct, hct⟩ := List.exists_cons_of_ne_nil
          (show f2.map Nat.digitChar ≠ [] by simpa using hf2)
        rw [hct]
        exact List.Lex.nil
    · rw [if_neg hf1]
      by_cases hf2 : f2 = []
      · exfalso
        have hval2 : d2.val = I1 := by rw [← hfr2, hf2, fracVal_nil]; ring
        have hpos : 0 < fracVal f1 := fracVal_pos f1 hf1 (hf1l hf1)
        rw [hval2] at hv
        linarith [hfr1]
      · rw [if_neg hf2]
        apply List.Lex.cons
        apply lex_frac_lists f1 f2 hf1b hf2b hf1l hf2l
        linarith [hfr1, hfr2]
  · exfalso
    have hc : (I2:ℚ) + 1 ≤ I1 := by exact_mod_cast hgt
    linarith

theorem lex_zero_vs_field (v : ℤ) (h0 : 0 ≤ v) (h : v ≤ 9999) (rest : List Char) :
    List.Lex (· < ·) ['0'] (formatFixed v 4 ++ rest) := by
  obtain ⟨e1, l1, b1, _⟩ := formatFixed_eq v h0 h
  rw [e1]
  obtain ⟨q, qt, hq⟩ := List.exists_cons_of_ne_nil
    (show field4digits v ≠ [] by intro hc; rw [hc] at l1; simp at l1)
  have hq10 : q < 10 := b1 q (by rw [hq]; exact List.mem_cons_self _ _)
  have hqt_ne : qt ≠ [] := by
    intro hc
    rw [hq, hc] at l1
    simp at l1
  rw [hq]
  simp only [List.map_cons, List.cons_append]
  rcases lt_or_eq_of_le (zero_le_digitChar hq10) with hlt | heqc
  · exact List.Lex.rel hlt
  · rw [← heqc]
    apply List.Lex.cons
    obtain ⟨c, ct, hct⟩ := List.exists_cons_of_ne_nil
      (show qt.map Nat.digitChar ++ rest ≠ [] by simp [hqt_ne])
    rw [hct]
    exact List.Lex.nil

theorem lex_neg_vs_field (v : ℤ) (h0 : 0 ≤ v) (h : v ≤ 9999)
    (s rest : List Char) :
    List.Lex (· < ·) ('-' :: s) (formatFixed v 4 ++ rest) := by
  obtain ⟨e1, l1, b1, _⟩ := formatFixed_eq v h0 h
  rw [e1]
  obtain ⟨q, qt, hq⟩ := List.exists_cons_of_ne_nil
    (show field4digits v ≠ [] by intro hc; rw [hc] at l1; simp at l1)
  have hq10 : q < 10 := b1 q (by rw [hq]; exact List.mem_cons_self _ _)
  rw [hq]
  simp only [List.map_cons, List.cons_append]
  exact List.Lex.rel (lt_of_lt_of_le (by decide) (zero_le_digitChar hq10))

/-! ## Structure of the number encoder -/

theorem serializeNumber_zero (d : Dec) (h : d.man = 0) :
    serializeNumberToOrderableString (.fin d) = ['0'] := by
  simp [serializeNumberToOrderableString, h, jsNumToString, decToString]

theorem serializeNumber_pos (d : Dec) (h : 0 < d.man) :
    serializeNumberToOrderableString (.fin d) =
      formatFixed (1024 + d.log10floor) 4 ++ decToString (mantDec d) := by
  have h1 : ¬ d.man = 0 := by omega
  have h2 : ¬ d.man < 0 := by omega
  simp [serializeNumberToOrderableString, h1, h2, log10floor_absDec]

theorem serializeNumber_neg (d : Dec) (h : d.man < 0) :
    serializeNumberToOrderableString (.fin d) =
      '-' :: (formatFixed (1024 - d.log10floor) 4 ++
        decToString (Dec.sub ⟨10, 0⟩ (mantDec d))) := by
  have h1 : ¬ d.man = 0 := by omega
  simp [serializeNumberToOrderableString, h1, h, log10floor_absDec]

/-- Monotonicity of the number encoding, over exact decimals in the
supported exponent range whose negative mantissa complements print in plain
notation. -/
theorem serializeNumber_mono (d1 d2 : Dec)
    (hv : d1.val < d2.val) (hr1 : expInRange d1) (hr2 : expInRange d2)
    (hn1 : negComplementPrintable d1) (hn2 : negComplementPrintable d2) :
    List.Lex (· < ·) (serializeNumberToOrderableString (.fin d1))
      (serializeNumberToOrderableString (.fin d2)) := by
  rcases lt_trichotomy d1.man 0 with hneg1 | hz1 | hpos1
  · rcases lt_trichotomy d2.man 0 with hneg2 | hz2 | hpos2
    · -- both negative
      have hvn1 : d1.val < 0 := (Dec.val_neg_iff d1).mpr hneg1
      have hvn2 : d2.val < 0 := (Dec.val_neg_iff d2).mpr hneg2
      have hb1 := log10floor_spec d1 (by omega)
      have hb2 := log10floor_spec d2 (by omega)
      rw [abs_of_neg hvn1] at hb1
      rw [abs_of_neg hvn2] at hb2
      have hr1' := hr1.resolve_left (by omega)
      have hr2' := hr2.resolve_left (by omega)
      have hn1' := hn1.resolve_left (by omega)
      have hn2' := hn2.resolve_left (by omega)
      have he21 : d2.log10floor ≤ d1.log10floor := by
        by_contra hc
        push_neg at hc
        have h3 : (10:ℚ) ^ (d1.log10floor + 1) ≤ 10 ^ d2.log10floor :=
          zpow_le_zpow_right₀ (by norm_num) (by omega)
        linarith [hb1.2, hb2.1]
      rw [serializeNumber_neg d1 hneg1, serializeNumber_neg d2 hneg2]
      rcases eq_or_lt_of_le he21 with heq | hlt
      · rw [heq]
        apply List.Lex.cons
        apply lex_append_left
        have hm1 := mant_bounds d1 (by omega)
        have hm2 := mant_bounds d2 (by omega)
        have hc1v : (Dec.sub ⟨10, 0⟩ (mantDec d1)).val = 10 - (mantDec d1).val := by
          rw [val_sub, val_ten]
        have hc2v : (Dec.sub ⟨10, 0⟩ (mantDec d2)).val = 10 - (mantDec d2).val := by
          rw [val_sub, val_ten]
        have hc1pos : 0 < (Dec.sub ⟨10, 0⟩ (mantDec d1)).man :=
          (Dec.val_pos_iff _).mp (by rw [hc1v]; linarith [hm1.2])
        have hc2pos : 0 < (Dec.sub ⟨10, 0⟩ (mantDec d2)).man :=
          (Dec.val_pos_iff _).mp (by rw [hc2v]; linarith [hm2.2])
        apply decToString_lt _ _ hc1pos hc2pos hn1'
          (by rw [hc1v]; linarith [hm1.1]) hn2' (by rw [hc2v]; linarith [hm2.1])
        rw [hc1v, hc2v]
        have hmm : (mantDec d2).val < (mantDec d1).val := by
          rw [mantDec_val, mantDec_val, abs_of_neg hvn1, abs_of_neg hvn2, heq]
          have hp : (0:ℚ) < 10 ^ d1.log10floor := zpow_pos (by norm_num) _
          exact div_lt_div_of_pos_right (by linarith) hp
        linarith
      · apply List.Lex.cons
        apply lex_append_of_eqlen
        · rw [formatFixed_length4 _ (by omega) (by omega),
            formatFixed_length4 _ (by omega) (by omega)]
        · exact formatFixed_lt _ _ (by omega) (by omega) (by omega)
    · -- negative vs zero
      rw [serializeNumber_neg d1 hneg1, serializeNumber_zero d2 hz2]
      exact List.Lex.rel (by decide)
    · -- negative vs positive
      have hr2' := hr2.resolve_left (by omega)
      rw [serializeNumber_neg d1 hneg1, serializeNumber_pos d2 hpos2]
      exact lex_neg_vs_field _ (by omega) (by omega) _ _
  · -- d1 is zero, so d2 is positive
    have hv1 : d1.val = 0 := (Dec.val_eq_zero_iff d1).mpr hz1
    have hpos2 : 0 < d2.man := (Dec.val_pos_iff d2).mp (by linarith)
    have hr2' := hr2.resolve_left (by omega)
    rw [serializeNumber_zero d1 hz1, serializeNumber_pos d2 hpos2]
    exact lex_zero_vs_field _ (by omega) (by omega) _
  · -- d1 positive, so d2 is positive
    have hvp1 : 0 < d1.val := (Dec.val_pos_iff d1).mpr hpos1
    have hvp2 : 0 < d2.val := by linarith
    have hpos2 : 0 < d2.man := (Dec.val_pos_iff d2).mp hvp2
    have hb1 := log10floor_spec d1 (by omega)
    have hb2 := log10floor_spec d2 (by omega)
    rw [abs_of_pos hvp1] at hb1
    rw [abs_of_pos hvp2] at hb2
    have hr1' := hr1.resolve_left (by omega)
    have hr2' := hr2.resolve_left (by omega)
    have he12 : d1.log10floor ≤ d2.log10floor := by
      by_contra hc
      push_neg at hc
      have h3 : (10:ℚ) ^ (d2.log10floor + 1) ≤ 10 ^ d1.log10floor :=
        zpow_le_zpow_right₀ (by norm_num) (by omega)
      linarith [hb1.1, hb2.2]
    rw [serializeNumber_pos d1 hpos1, serializeNumber_pos d2 hpos2]
    rcases eq_or_lt_of_le he12 with heq | hlt
    · rw [← heq]
      apply lex_append_left
      have hm1 := mant_bounds d1 (by omega)
      have hm2 := mant_bounds d2 (by omega)
      have h16 : (10:ℚ) ^ (-6:ℤ) ≤ 1 := by
        have h4 := zpow_le_zpow_right₀ (by norm_num : (1:ℚ) ≤ 10)
          (by norm_num : (-6:ℤ) ≤ 0)
        rwa [zpow_zero] at h4
      apply decToString_lt _ _ (mantDec_man_pos d1 (by omega))
        (mantDec_man_pos d2 (by omega)) (le_trans h16 hm1.1) hm1.2
        (le_trans h16 hm2.1) hm2.2
      rw [mantDec_val, mantDec_val, abs_of_pos hvp1, abs_of_pos hvp2, ← heq]
      exact div_lt_div_of_pos_right hv (zpow_pos (by norm_num) _)
    · apply lex_append_of_eqlen
      · rw [formatFixed_length4 _ (by omega) (by omega),
          formatFixed_length4 _ (by omega) (by omega)]
      · exact formatFixed_lt _ _ (by omega) (by omega) (by omega)

/-! ## Claims -/

/-- C2: for every number `n`, date `d` and string `s`, the scalar encodings
satisfy `encodeScalar n < encodeScalar d < encodeScalar s` lexicographically,
by the type tags `A < B < C`. -/
theorem crossTypeOrdering (n t : JSNum) (s : List Char) :
    encLt (serializeValueToOrderableString (.num n))
        (serializeValueToOrderableString (.date t)) ∧
      encLt (serializeValueToOrderableString (.date t))
        (serializeValueToOrderableString (.str s)) :=
  ⟨List.Lex.rel (by decide), List.Lex.rel (by decide)⟩

/-- C3: with a compound key path of arity 2, `encodeKey [1, "b"]` is
lexicographically below `encodeKey [2, "a"]`: the first component dominates,
whatever the two field locators are. -/
theorem compound_first_component_dominates (p1 p2 : List Char) :
    encLt
      (serializeKeyToString (.arr [.num (.fin ⟨1, 0⟩), .str ['b']]) (.multi [p1, p2]))
      (serializeKeyToString (.arr [.num (.fin ⟨2, 0⟩), .str ['a']]) (.multi [p1, p2])) := by
  show encLt
    (.ok ['A', '1', '0', '2', '4', '1', '%', '&', 'C', 'b'])
    (.ok ['A', '1', '0', '2', '4', '2', '%', '&', 'C', 'a'])
  decide

/-- C4 counterexample: a 3-element key against a 2-ary compound key path is
serialized successfully (three joined components), not rejected with a
shape-mismatch error. -/
theorem serializeKey_arity_mismatch_not_rejected :
    serializeKeyToString
        (.arr [.num (.fin ⟨1, 0⟩), .num (.fin ⟨2, 0⟩), .num (.fin ⟨3, 0⟩)])
        (.multi [['a'], ['b']]) =
      .ok ['A', '1', '0', '2', '4', '1', '%', '&', 'A', '1', '0', '2', '4', '2',
        '%', '&', 'A', '1', '0', '2', '4', '3'] ∧
    [JSValue.num (.fin ⟨1, 0⟩), .num (.fin ⟨2, 0⟩), .num (.fin ⟨3, 0⟩)].length ≠
      [['a'], ['b']].length :=
  ⟨rfl, by decide⟩

/-- C4 as amended: `serializeKeyToString` never rejects an array-shaped key
whose length differs from a compound key path's arity; it either encodes it
(with the wrong number of components) or surfaces a component's
unsupported-type error.  Arity is not checked. -/
theorem serializeKey_compound_ignores_arity (ps : List (List Char)) (xs : List JSValue)
    (hp : 1 < ps.length) (_hlen : xs.length ≠ ps.length) :
    (∃ s, serializeKeyToString (.arr xs) (.multi ps) = .ok s) ∨
      ∃ t, serializeKeyToString (.arr xs) (.multi ps) =
        .error (.unsupportedKeyType t) := by
  have hc : isCompoundKeyPath (.multi ps) = true := by
    simp [isCompoundKeyPath, hp]
  rcases mapExcept_serialize_ok_or_unsupported xs with ⟨ys, h⟩ | ⟨t, h⟩
  · exact .inl ⟨List.intercalate keypathJoinerString ys,
      by simp [serializeKeyToString, hc, h, Except.map]⟩
  · exact .inr ⟨t, by simp [serializeKeyToString, hc, h, Except.map]⟩

/-- Witness for `serializeKey_compound_ignores_arity` at the concrete
mismatched input `[1, 2, 3]` against `["a", "b"]`. -/
theorem serializeKey_compound_ignores_arity_witness :
    (∃ s, serializeKeyToString
        (.arr [.num (.fin ⟨1, 0⟩), .num (.fin ⟨2, 0⟩), .num (.fin ⟨3, 0⟩)])
        (.multi [['a'], ['b']]) = .ok s) ∨
      ∃ t, serializeKeyToString
          (.arr [.num (.fin ⟨1, 0⟩), .num (.fin ⟨2, 0⟩), .num (.fin ⟨3, 0⟩)])
          (.multi [['a'], ['b']]) = .error (.unsupportedKeyType t) :=
  serializeKey_compound_ignores_arity _ _ (by decide) (by decide)

/-- C5: if any field locator of the key path resolves to null or undefined
on the record, `getKeyForKeypath` returns `undefined` as a whole; in
particular `resolveKey {a: 1} ["a", "b"]` is `undefined`, not a partial
key. -/
theorem getKey_undefined_propagation :
    (∀ (obj : JSValue) (kp : KeyPathType),
        (arrayifyPath kp).any
            (fun p => isNullOrUndefinedV (getValueForSingleKeypath obj p)) = true →
        getKeyForKeypath obj kp = none) ∧
      getKeyForKeypath (.obj [(['a'], .num (.fin ⟨1, 0⟩))] ['O', 'b', 'j', 'e', 'c', 't'])
          (.multi [['a'], ['b']]) = none := by
  refine ⟨?_, rfl⟩
  intro obj kp h
  have h2 : ((arrayifyPath kp).map (getValueForSingleKeypath obj)).any
      (fun v => isNullOrUndefinedV v) = true := by
    simpa [List.any_map, Function.comp] using h
  simp [getKeyForKeypath, h2]

/-- Witness for `getKey_undefined_propagation` at the concrete record
`{a: 1}` with the compound key path `["a", "b"]`. -/
theorem getKey_undefined_propagation_witness :
    getKeyForKeypath (.obj [(['a'], .num (.fin ⟨1, 0⟩))] ['O', 'b', 'j', 'e', 'c', 't'])
        (.multi [['a'], ['b']]) = none :=
  getKey_undefined_propagation.1
    (.obj [(['a'], .num (.fin ⟨1, 0⟩))] ['O', 'b', 'j', 'e', 'c', 't'])
    (.multi [['a'], ['b']]) (by decide)

/-- C6: `serializeKeyToString` rejects shape mismatches in both directions,
and the error carries the offending key and key path (the data the source
interpolates into the message); concretely for `([1,2], "singleField")` and
`(5, ["a","b"])`. -/
theorem serializeKey_shape_mismatch_rejection :
    (∀ (kp : KeyPathType) (xs : List JSValue), isCompoundKeyPath kp = false →
        serializeKeyToString (.arr xs) kp =
          .error (.serializeShapeMismatch false (.arr xs) kp)) ∧
    (∀ (kp : KeyPathType) (k : JSValue), isCompoundKeyPath kp = true →
        isArrayV k = false →
        serializeKeyToString k kp = .error (.serializeShapeMismatch true k kp)) ∧
    serializeKeyToString (.arr [.num (.fin ⟨1, 0⟩), .num (.fin ⟨2, 0⟩)])
        (.single ['s', 'i', 'n', 'g', 'l', 'e', 'F', 'i', 'e', 'l', 'd']) =
      .error (.serializeShapeMismatch false
        (.arr [.num (.fin ⟨1, 0⟩), .num (.fin ⟨2, 0⟩)])
        (.single ['s', 'i', 'n', 'g', 'l', 'e', 'F', 'i', 'e', 'l', 'd'])) ∧
    serializeKeyToString (.num (.fin ⟨5, 0⟩)) (.multi [['a'], ['b']]) =
      .error (.serializeShapeMismatch true (.num (.fin ⟨5, 0⟩)) (.multi [['a'], ['b']])) := by
  refine ⟨?_, ?_, rfl, rfl⟩
  · intro kp xs h
    simp [serializeKeyToString, h]
  · intro kp k h hk
    cases k <;> simp_all [serializeKeyToString, isArrayV]

/-- Witness for `serializeKey_shape_mismatch_rejection` at the two concrete
mismatches from the claim. -/
theorem serializeKey_shape_mismatch_rejection_witness :
    serializeKeyToString (.arr [.num (.fin ⟨1, 0⟩), .num (.fin ⟨2, 0⟩)])
        (.single ['s', 'i', 'n', 'g', 'l', 'e', 'F', 'i', 'e', 'l', 'd']) =
      .error (.serializeShapeMismatch false
        (.arr [.num (.fin ⟨1, 0⟩), .num (.fin ⟨2, 0⟩)])
        (.single ['s', 'i', 'n', 'g', 'l', 'e', 'F', 'i', 'e', 'l', 'd'])) ∧
    serializeKeyToString (.num (.fin ⟨5, 0⟩)) (.multi [['a'], ['b']]) =
      .error (.serializeShapeMismatch true (.num (.fin ⟨5, 0⟩)) (.multi [['a'], ['b']])) :=
  ⟨serializeKey_shape_mismatch_rejection.1
      (.single ['s', 'i', 'n', 'g', 'l', 'e', 'F', 'i', 'e', 'l', 'd'])
      [.num (.fin ⟨1, 0⟩), .num (.fin ⟨2, 0⟩)] rfl,
    serializeKey_shape_mismatch_rejection.2.1 (.multi [['a'], ['b']])
      (.num (.fin ⟨5, 0⟩)) rfl rfl⟩

/-- C7: `serializeValueToOrderableString` throws the unsupported-type error
(identifying the runtime type) exactly on values that are not numbers, dates
or strings, and never on numbers, dates or strings. -/
theorem serializeValue_unsupported_type_rejection (v : JSValue) :
    (isSupportedScalar v = false →
        serializeValueToOrderableString v =
          .error (.unsupportedKeyType (runtimeTypeRep v))) ∧
      (isSupportedScalar v = true → ∃ s, serializeValueToOrderableString v = .ok s) := by
  cases v <;> simp [isSupportedScalar, serializeValueToOrderableString]

/-- Witness for `serializeValue_unsupported_type_rejection`: a plain object
is rejected, a number is encoded. -/
theorem serializeValue_unsupported_type_rejection_witness :
    serializeValueToOrderableString (.obj [] ['O', 'b', 'j', 'e', 'c', 't']) =
        .error (.unsupportedKeyType
          (runtimeTypeRep (.obj [] ['O', 'b', 'j', 'e', 'c', 't']))) ∧
      ∃ s, serializeValueToOrderableString (.num (.fin ⟨1, 0⟩)) = .ok s :=
  ⟨(serializeValue_unsupported_type_rejection (.obj [] ['O', 'b', 'j', 'e', 'c', 't'])).1 rfl,
    (serializeValue_unsupported_type_rejection (.num (.fin ⟨1, 0⟩))).2 rfl⟩

/-- C9: `formListOfKeys` wraps a single compound key `[1, 2]` (first element
not array-shaped) into the one-element batch `[[1, 2]]` — which differs from
`[[1], [2]]` — and returns an input whose first element is array-shaped
as the batch itself. -/
theorem formListOfKeys_round_trip_shape :
    formListOfKeys (.arr [.num (.fin ⟨1, 0⟩), .num (.fin ⟨2, 0⟩)]) (.multi [['a'], ['b']]) =
        .ok [.arr [.num (.fin ⟨1, 0⟩), .num (.fin ⟨2, 0⟩)]] ∧
      (∀ (ps : List (List Char)) (x : JSValue) (xs : List JSValue), 1 < ps.length →
          isArrayV x = true →
          formListOfKeys (.arr (x :: xs)) (.multi ps) = .ok (x :: xs)) ∧
      ((.ok [.arr [.num (.fin ⟨1, 0⟩), .num (.fin ⟨2, 0⟩)]] :
          Except JsError (List JSValue)) ≠
        .ok [.arr [.num (.fin ⟨1, 0⟩)], .arr [.num (.fin ⟨2, 0⟩)]]) := by
  refine ⟨rfl, ?_, ?_⟩
  · intro ps x xs hp hx
    have hc : isCompoundKeyPath (.multi ps) = true := by
      simp [isCompoundKeyPath, hp]
    cases x <;> simp_all [formListOfKeys, isArrayV]
  · intro h
    simp at h

/-- Witness for `formListOfKeys_round_trip_shape`: a batch whose first
element is an array is passed through unchanged. -/
theorem formListOfKeys_round_trip_shape_witness :
    formListOfKeys (.arr [.arr [.num (.fin ⟨1, 0⟩), .num (.fin ⟨2, 0⟩)]])
        (.multi [['a'], ['b']]) =
      .ok [.arr [.num (.fin ⟨1, 0⟩), .num (.fin ⟨2, 0⟩)]] :=
  formListOfKeys_round_trip_shape.2.1 [['a'], ['b']]
    (.arr [.num (.fin ⟨1, 0⟩), .num (.fin ⟨2, 0⟩)]) [] (by decide) rfl

/-- C10: a one-element array key path is not compound, yet resolution yields
a one-element array key, so the resolve-then-encode pipeline
(`getSerializedKeyForKeypath`) always throws the non-compound-keypath shape
mismatch whenever a key exists. -/
theorem singleton_array_keypath_never_serializes :
    (∀ p, isCompoundKeyPath (.multi [p]) = false) ∧
      ∀ (obj : JSValue) (p : List Char) (v : JSValue),
        getKeyForKeypath obj (.multi [p]) = some v →
        v = .arr [getValueForSingleKeypath obj p] ∧
        getSerializedKeyForKeypath obj (.multi [p]) =
          .error (.serializeShapeMismatch false v (.multi [p])) := by
  refine ⟨fun p => rfl, ?_⟩
  intro obj p v h
  by_cases hn : isNullOrUndefinedV (getValueForSingleKeypath obj p) = true
  · exfalso
    simp [getKeyForKeypath, arrayifyPath, hn] at h
  · simp only [Bool.not_eq_true] at hn
    have h2 : getKeyForKeypath obj (.multi [p]) =
        some (.arr [getValueForSingleKeypath obj p]) := by
      simp [getKeyForKeypath, arrayifyPath, hn]
    rw [h2] at h
    injection h with h3
    refine ⟨h3.symm, ?_⟩
    rw [getSerializedKeyForKeypath, h2, ← h3]
    rfl

/-- Witness for `singleton_array_keypath_never_serializes` at the concrete
record `{a: 1}` with the key path `["a"]`. -/
theorem singleton_array_keypath_never_serializes_witness :
    JSValue.arr [.num (.fin ⟨1, 0⟩)] =
        .arr [getValueForSingleKeypath
          (.obj [(['a'], .num (.fin ⟨1, 0⟩))] ['O', 'b', 'j', 'e', 'c', 't']) ['a']] ∧
      getSerializedKeyForKeypath
          (.obj [(['a'], .num (.fin ⟨1, 0⟩))] ['O', 'b', 'j', 'e', 'c', 't'])
          (.multi [['a']]) =
        .error (.serializeShapeMismatch false (.arr [.num (.fin ⟨1, 0⟩)])
          (.multi [['a']])) :=
  singleton_array_keypath_never_serializes.2
    (.obj [(['a'], .num (.fin ⟨1, 0⟩))] ['O', 'b', 'j', 'e', 'c', 't']) ['a']
    (.arr [.num (.fin ⟨1, 0⟩)]) rfl

/-- C1 as amended: for exact decimals `a < b` within the supported exponent
range — and, for negative values, with mantissa complement at least `10⁻⁶`
so that its textual form avoids scientific notation — the number encoding is
lexicographically monotone; and the concrete chain
`encodeScalar (-5) < encodeScalar (-1) < encodeScalar 0 < encodeScalar 1 <
encodeScalar 100` holds. -/
theorem number_encoding_monotone :
    (∀ d1 d2 : Dec, d1.val < d2.val → expInRange d1 → expInRange d2 →
        negComplementPrintable d1 → negComplementPrintable d2 →
        encLt (serializeValueToOrderableString (.num (.fin d1)))
          (serializeValueToOrderableString (.num (.fin d2)))) ∧
      encLt (serializeValueToOrderableString (.num (.fin ⟨-5, 0⟩)))
        (serializeValueToOrderableString (.num (.fin ⟨-1, 0⟩))) ∧
      encLt (serializeValueToOrderableString (.num (.fin ⟨-1, 0⟩)))
        (serializeValueToOrderableString (.num (.fin ⟨0, 0⟩))) ∧
      encLt (serializeValueToOrderableString (.num (.fin ⟨0, 0⟩)))
        (serializeValueToOrderableString (.num (.fin ⟨1, 0⟩))) ∧
      encLt (serializeValueToOrderableString (.num (.fin ⟨1, 0⟩)))
        (serializeValueToOrderableString (.num (.fin ⟨100, 0⟩))) := by
  refine ⟨?_, by decide, by decide, by decide, by decide⟩
  intro d1 d2 hv h1 h2 h3 h4
  exact List.Lex.cons (serializeNumber_mono d1 d2 hv h1 h2 h3 h4)

/-- C1 counterexample: the claim as stated fails inside the supported
exponent range.  For `a = -9.999999991` and `b = -9.99999999` (both with
`⌊log10 |·|⌋ = 0`), the mantissa complements `9e-9` and `1e-8` print in
scientific notation, and `encodeScalar a = "A-10249e-9"` is NOT
lexicographically below `encodeScalar b = "A-10241e-8"` although `a < b`. -/
theorem number_encoding_monotone_counterexample :
    Dec.val ⟨-9999999991, -9⟩ < Dec.val ⟨-999999999, -8⟩ ∧
      expInRange ⟨-9999999991, -9⟩ ∧ expInRange ⟨-999999999, -8⟩ ∧
      ¬ encLt (serializeValueToOrderableString (.num (.fin ⟨-9999999991, -9⟩)))
        (serializeValueToOrderableString (.num (.fin ⟨-999999999, -8⟩))) := by
  refine ⟨?_, by decide, by decide, by decide⟩
  simp only [Dec.val]
  rw [show ((-9:ℤ)) = -((9:ℕ):ℤ) from by norm_num,
    show ((-8:ℤ)) = -((8:ℕ):ℤ) from by norm_num,
    zpow_neg, zpow_neg, zpow_natCast, zpow_natCast,
    ← div_eq_mul_inv, ← div_eq_mul_inv]
  rw [div_lt_div_iff (by positivity) (by positivity)]
  norm_num

/-- Witness for `number_encoding_monotone` at the concrete pair `1 < 2`. -/
theorem number_encoding_monotone_witness :
    Dec.val ⟨1, 0⟩ < Dec.val ⟨2, 0⟩ ∧
      encLt (serializeValueToOrderableString (.num (.fin ⟨1, 0⟩)))
        (serializeValueToOrderableString (.num (.fin ⟨2, 0⟩))) :=
  have h1 : Dec.val ⟨1, 0⟩ < Dec.val ⟨2, 0⟩ := by
    simp only [Dec.val, zpow_zero, mul_one]
    exact_mod_cast one_lt_two
  ⟨h1, number_encoding_monotone.1 ⟨1, 0⟩ ⟨2, 0⟩ h1 (by decide) (by decide)
    (Or.inl (by decide)) (Or.inl (by decide))⟩

/-- C8: `serializeNumberToOrderableString` is total — no input is rejected,
exponent range included — and computes exactly the documented formula: zero,
`NaN` and the infinities print raw; a positive number prints the 4-digit
field `1024 + e` followed by the mantissa's text, where `e` is the unique
integer with `10^e ≤ v < 10^(e+1)` and the mantissa is `v / 10^e`; a
negative number prints `"-"`, the field `1024 - e` of `|v|`, and the text of
`10 - mantissa`. -/
theorem serializeNumber_formula :
    serializeNumberToOrderableString .nan = ['N', 'a', 'N'] ∧
    serializeNumberToOrderableString .posInf =
      ['I', 'n', 'f', 'i', 'n', 'i', 't', 'y'] ∧
    serializeNumberToOrderableString .negInf =
      '-' :: ['I', 'n', 'f', 'i', 'n', 'i', 't', 'y'] ∧
    (∀ d : Dec, d.man = 0 → serializeNumberToOrderableString (.fin d) = ['0']) ∧
    (∀ d : Dec, 0 < d.man → ∃ e : ℤ,
      (10:ℚ) ^ e ≤ d.val ∧ d.val < 10 ^ (e + 1) ∧
      (mantDec d).val = d.val / 10 ^ e ∧
      serializeNumberToOrderableString (.fin d) =
        formatFixed (1024 + e) 4 ++ decToString (mantDec d)) ∧
    (∀ d : Dec, d.man < 0 → ∃ e : ℤ,
      (10:ℚ) ^ e ≤ -d.val ∧ -d.val < 10 ^ (e + 1) ∧
      (Dec.sub ⟨10, 0⟩ (mantDec d)).val = 10 - (-d.val) / 10 ^ e ∧
      serializeNumberToOrderableString (.fin d) =
        '-' :: (formatFixed (1024 - e) 4 ++
          decToString (Dec.sub ⟨10, 0⟩ (mantDec d)))) := by
  refine ⟨rfl, rfl, rfl, serializeNumber_zero, ?_, ?_⟩
  · intro d hd
    have h := log10floor_spec d (by omega)
    rw [abs_of_pos ((Dec.val_pos_iff d).mpr hd)] at h
    exact ⟨d.log10floor, h.1, h.2,
      by rw [mantDec_val, abs_of_pos ((Dec.val_pos_iff d).mpr hd)],
      serializeNumber_pos d hd⟩
  · intro d hd
    have h := log10floor_spec d (by omega)
    rw [abs_of_neg ((Dec.val_neg_iff d).mpr hd)] at h
    exact ⟨d.log10floor, h.1, h.2,
      by rw [val_sub, val_ten, mantDec_val,
        abs_of_neg ((Dec.val_neg_iff d).mpr hd)],
      serializeNumber_neg d hd⟩

/-- Witness for `serializeNumber_formula` at zero, a positive and a negative
input. -/
theorem serializeNumber_formula_witness :
    serializeNumberToOrderableString (.fin ⟨0, 3⟩) = ['0'] ∧
      (∃ e : ℤ, (10:ℚ) ^ e ≤ Dec.val ⟨5, 0⟩ ∧ Dec.val ⟨5, 0⟩ < 10 ^ (e + 1) ∧
        (mantDec ⟨5, 0⟩).val = Dec.val ⟨5, 0⟩ / 10 ^ e ∧
        serializeNumberToOrderableString (.fin ⟨5, 0⟩) =
          formatFixed (1024 + e) 4 ++ decToString (mantDec ⟨5, 0⟩)) ∧
      (∃ e : ℤ, (10:ℚ) ^ e ≤ - Dec.val ⟨-5, 0⟩ ∧
        - Dec.val ⟨-5, 0⟩ < 10 ^ (e + 1) ∧
        (Dec.sub ⟨10, 0⟩ (mantDec ⟨-5, 0⟩)).val =
          10 - (- Dec.val ⟨-5, 0⟩) / 10 ^ e ∧
        serializeNumberToOrderableString (.fin ⟨-5, 0⟩) =
          '-' :: (formatFixed (1024 - e) 4 ++
            decToString (Dec.sub ⟨10, 0⟩ (mantDec ⟨-5, 0⟩)))) :=
  ⟨serializeNumber_formula.2.2.2.1 ⟨0, 3⟩ rfl,
    serializeNumber_formula.2.2.2.2.1 ⟨5, 0⟩ (by decide),
    serializeNumber_formula.2.2.2.2.2 ⟨-5, 0⟩ (by decide)⟩

end OSP
